import Mathlib

/-!
# A-Puzzle-A-Day solver: shallow embedding and verification

Shallow Lean embedding of `src/apuzzle_solver.py` (ChessGipsy/A-Puzzle-A-Day-solver).
Python `set`s are modelled as `Finset`; the mutable recursive search is modelled by
explicit state passing.  Machine-irrelevant details (timing, printing, argv parsing)
are out of scope, matching the specification's scope.

Notes on faithfulness:
* `CELL_TO_COL` (a Python dict mapping each board cell to its insertion position in
  `BOARD_CELLS`) is modelled as the index of the cell in `BOARD_CELLS`.
* Python's `min(s, key=k)` over a set of small non-negative ints below the hash-table
  size iterates in ascending order and returns the first element attaining the minimal
  key; `pyMin` models exactly that (ascending order, first minimum wins ties).
* The Python recursion has no fuel.  `searchF` carries a fuel argument only to be a
  total Lean function; `search_fuel_8_isSome` and `searchF_fuel_irrelevant` prove that
  fuel 8 always suffices and that any larger fuel yields the same result, so
  `solve_exact_cover` (defined with fuel 8) computes the value of the unbounded
  Python recursion.
* `SearchState.trace` records the `used` set at each entry to the column-selection
  step (each call of `choose`).  It is pure instrumentation: no other component of
  the state depends on it.  It lets us state claims about "every step of the search".
-/

namespace APuzzle

set_option maxRecDepth 100000

/-- `ROW_WIDTHS` from the source: widths of the 7 board rows. -/
def ROW_WIDTHS : List Nat := [6, 6, 7, 7, 7, 7, 3]

/-- A board cell, a `(row, column)` pair. -/
abbrev Cell := Nat × Nat

/-- `BOARD_CELLS`: all cells in construction order
(`for r, w in enumerate(ROW_WIDTHS): for c in range(w)`). -/
def BOARD_CELLS : List Cell :=
  (List.range ROW_WIDTHS.length).flatMap fun r =>
    (List.range (ROW_WIDTHS.getD r 0)).map fun c => (r, c)

/-- `CELL_TO_COL`: the dict built alongside `BOARD_CELLS` maps each cell to its
position in `BOARD_CELLS`; a lookup of an absent cell is `none` (Python: `KeyError`). -/
def CELL_TO_COL (rc : Cell) : Option Nat := BOARD_CELLS.findIdx? (· = rc)

/-- Total version of `CELL_TO_COL`, used only where the source guarantees the cell is
present (defaults to 0 on the never-taken absent branch). -/
def cellCol (rc : Cell) : Nat := (CELL_TO_COL rc).getD 0

/-- `month_cell` from the source. -/
def month_cell (m : Nat) : Cell := if m ≤ 6 then (0, m - 1) else (1, m - 7)

/-- `day_cell` from the source. -/
def day_cell (d : Nat) : Cell :=
  if d ≤ 7 then (2, d - 1)
  else if d ≤ 14 then (3, d - 8)
  else if d ≤ 21 then (4, d - 15)
  else if d ≤ 28 then (5, d - 22)
  else (6, d - 29)

/-- A raw piece grid (`RawPiece`): rows of 0/1 entries. -/
abbrev RawPiece := List (List Nat)

/-- `PIECES` from the source, in dict insertion order A..H. -/
def PIECES : List (String × RawPiece) :=
  [("A", [[1,0],[1,0],[1,0],[1,1]]),
   ("B", [[1,0],[1,0],[1,1],[1,0]]),
   ("C", [[1,0],[1,0],[1,1],[0,1]]),
   ("D", [[1,1],[1,0],[1,1]]),
   ("E", [[1,1],[1,1],[1,1]]),
   ("F", [[1,0],[1,1],[1,1]]),
   ("G", [[1,1,0],[0,1,0],[0,1,1]]),
   ("H", [[1,0,0],[1,0,0],[1,1,1]])]

/-- `grid_to_coords`: coordinates of the filled (truthy) cells, row-major. -/
def grid_to_coords (g : RawPiece) : List Cell :=
  g.enum.flatMap fun rrow =>
    rrow.2.enum.filterMap fun cv =>
      if cv.2 ≠ 0 then some (rrow.1, cv.1) else none

/-- Maximum of a list of naturals (0 on the empty list; the source only applies the
Python `max` to nonempty coordinate lists). -/
def listMax (l : List Nat) : Nat := l.foldr max 0

/-- Minimum of a nonempty list of naturals (0 on the empty list; same caveat). -/
def listMin : List Nat → Nat
  | [] => 0
  | x :: xs => xs.foldr min x

/-- `rotate`: `h = max r + 1`; `(r, c) ↦ (c, h - 1 - r)`. -/
def rotate (cs : List Cell) : List Cell :=
  let h := listMax (cs.map Prod.fst) + 1
  cs.map fun rc => (rc.2, h - 1 - rc.1)

/-- `flip`: `w = max c + 1`; `(r, c) ↦ (r, w - 1 - c)`. -/
def flip (cs : List Cell) : List Cell :=
  let w := listMax (cs.map Prod.snd) + 1
  cs.map fun rc => (rc.1, w - 1 - rc.2)

/-- Lexicographic order on coordinate pairs, as Python's tuple comparison uses. -/
def cellLe (a b : Cell) : Bool := decide (a.1 < b.1 ∨ (a.1 = b.1 ∧ a.2 ≤ b.2))

/-- The lexicographic order as a decidable relation, for sorting. -/
def cellLeR (a b : Cell) : Prop := a.1 < b.1 ∨ (a.1 = b.1 ∧ a.2 ≤ b.2)

instance : DecidableRel cellLeR := fun a b => by unfold cellLeR; infer_instance

/-- `normalize`: translate so minimum row and column are 0, then sort row-major.
Python's `sorted` is modelled by insertion sort: the lexicographic order is total
and antisymmetric, so every sorting algorithm produces this same output. -/
def normalize (cs : List Cell) : List Cell :=
  let mr := listMin (cs.map Prod.fst)
  let mc := listMin (cs.map Prod.snd)
  List.insertionSort cellLeR (cs.map fun rc => (rc.1 - mr, rc.2 - mc))

/-- `rot // 90` iterated applications of `rotate`. -/
def iterRotate : Nat → List Cell → List Cell
  | 0, cs => cs
  | n + 1, cs => iterRotate n (rotate cs)

/-- One orientation record: normalized coordinate set, rotation angle, flip flag. -/
abbrev Transform := List Cell × Nat × Bool

/-- `all_transforms`: enumerate flip ∈ {false, true} outer, rotation ∈ {0,90,180,270}
inner; normalize; keep first occurrence of each normalized coordinate set.  The
Python `seen` set always equals the set of first components of the output list, so
dedup is modelled by membership in the accumulator. -/
def all_transforms (g : RawPiece) : List Transform :=
  let base := grid_to_coords g
  (([false, true].flatMap fun fl => [0, 90, 180, 270].map fun rot => (fl, rot))).foldl
    (fun acc p =>
      let cs0 := if p.1 then flip base else base
      let ncs := normalize (iterRotate (p.2 / 90) cs0)
      if acc.any fun t => t.1 = ncs then acc else acc ++ [(ncs, p.2, p.1)])
    []

/-- The `Placement` class: piece tag, sorted occupied column indices, anchor,
rotation, flip flag. -/
structure Placement where
  piece : String
  squares : List Nat
  top_left : Cell
  rotation : Nat
  flipped : Bool
deriving DecidableEq

instance : Inhabited Placement := ⟨⟨"", [], (0, 0), 0, false⟩⟩

/-- The cells occupied by an orientation translated by the anchor `(tr, tc)`. -/
def placementCells (coords : List Cell) (tr tc : Nat) : List Cell :=
  coords.map fun rc => (tr + rc.1, tc + rc.2)

/-- Per-cell legality test of the inner loop of `generate_placements`:
`c >= ROW_WIDTHS[r] or (r, c) in excluded` rejects the placement. -/
def cellOk (excluded : Finset Cell) (rc : Cell) : Bool :=
  decide (rc.2 < ROW_WIDTHS.getD rc.1 0) && !(decide (rc ∈ excluded))

/-- The body of the outer loop of `generate_placements`: all placements of one
piece (named grid), over all its orientations and all anchors the code tries. -/
def piecePlacements (excluded : Finset Cell) (ng : String × RawPiece) :
    List Placement :=
  (all_transforms ng.2).flatMap fun t =>
    let coords := t.1
    let max_r := listMax (coords.map Prod.fst)
    let max_c := listMax (coords.map Prod.snd)
    (List.range (ROW_WIDTHS.length - max_r)).flatMap fun tr =>
      (List.range (ROW_WIDTHS.getD tr 0 - max_c)).filterMap fun tc =>
        let cells := placementCells coords tr tc
        if cells.all (cellOk excluded) then
          some ⟨ng.1, List.insertionSort (· ≤ ·) (cells.map cellCol),
                (tr, tc), t.2.1, t.2.2⟩
        else none

/-- `generate_placements` from the source.  The inner `for`-loop with `ok`-flag and
`break` is equivalent to an all-cells test; `cell_idxs` is sorted by the `Placement`
constructor (`tuple(sorted(squares))`, modelled by insertion sort — `≤` on `Nat` is
total and antisymmetric, so the sorted output is algorithm-independent). -/
def generate_placements (excluded : Finset Cell) : List Placement :=
  PIECES.flatMap (piecePlacements excluded)

/-! ## Exact-cover solver -/

/-- The piece tags in dict order (`PIECES.keys()`). -/
def pieceTags : List String := PIECES.map Prod.fst

/-- `sorted(PIECES)`: the tags in sorted order.  The dict keys A..H are already
sorted, so this equals `pieceTags`; kept as a separate name to mirror the source. -/
def sortedTags : List String := pieceTags

/-- `board_cols`: `{CELL_TO_COL[xy] for xy in BOARD_CELLS if xy not in excluded}`. -/
def boardColsOf (excluded : Finset Cell) : Finset Nat :=
  ((BOARD_CELLS.filter fun xy => decide (xy ∉ excluded)).map cellCol).toFinset

/-- `piece_cols[p] = max(board_cols) + 1 + i` for the `i`-th sorted tag `p`.
For a tag outside A..H (where Python raises `KeyError`) this returns a junk value. -/
def pieceColFn (base : Nat) (tag : String) : Nat :=
  base + sortedTags.findIdx (· = tag)

/-- The precomputed solver context: placements, board columns, piece-column base,
universe, and the `col_to_rows` index (association list, columns in ascending order,
row ids in ascending order exactly as Python's append loop produces). -/
structure Ctx where
  pls : List Placement
  bCols : Finset Nat
  base : Nat
  univ : Finset Nat
  ctr : List (Nat × List Nat)

/-- Full column set of a placement row:
`(set(pl.squares) & board_cols) | {piece_cols[pl.piece]}`. -/
def rowColsOf (bCols : Finset Nat) (base : Nat) (pl : Placement) : Finset Nat :=
  (pl.squares.toFinset ∩ bCols) ∪ {pieceColFn base pl.piece}

/-- The elements of a finite set of naturals in ascending order (CPython iterates a
set of small non-negative ints below the hash-table size in exactly this order). -/
def ascList (s : Finset Nat) : List Nat :=
  (List.range (s.sup id + 1)).filter fun x => decide (x ∈ s)

/-- Build `col_to_rows`: for each column of the universe, the ascending list of ids
of the placements whose full column set contains it. -/
def mkColToRows (u : Finset Nat) (pls : List Placement) (bCols : Finset Nat)
    (base : Nat) : List (Nat × List Nat) :=
  (ascList u).map fun c =>
    (c, (List.range pls.length).filter fun i =>
      decide (c ∈ rowColsOf bCols base (pls.getD i default)))

/-- Assemble the context exactly as the prelude of `solve_exact_cover` does. -/
def mkCtx (pls : List Placement) (excluded : Finset Cell) : Ctx :=
  let b := boardColsOf excluded
  let base := b.sup id + 1
  let u := b ∪ (sortedTags.map (pieceColFn base)).toFinset
  ⟨pls, b, base, u, mkColToRows u pls b base⟩

/-- The full column set of row `i` (out-of-range ids yield the junk default;
the search only uses in-range ids). -/
def Ctx.rowCols (ctx : Ctx) (i : Nat) : Finset Nat :=
  rowColsOf ctx.bCols ctx.base (ctx.pls.getD i default)

/-- `col_to_rows[c]` (the empty list for a column outside the universe). -/
def Ctx.rows (ctx : Ctx) (c : Nat) : List Nat := (ctx.ctr.lookup c).getD []

/-- The key of `choose`: number of candidate rows of column `c` whose square set
does not meet `used` (`len([r for r in col_to_rows[c] if not
(set(placements[r].squares) & used)])`).  Note: only the squares are consulted,
not the row's piece column. -/
def Ctx.keyLen (ctx : Ctx) (used : Finset Nat) (c : Nat) : Nat :=
  ((ctx.rows c).filter fun r =>
    decide ((ctx.pls.getD r default).squares.toFinset ∩ used = ∅)).length

/-- The specification-side candidate count: rows none of whose columns (board
columns and piece column alike, i.e. the row's full column set) are used.  This is
*not* what the code computes; it exists to state claim C4 as written. -/
def Ctx.claimLen (ctx : Ctx) (used : Finset Nat) (c : Nat) : Nat :=
  ((ctx.rows c).filter fun r => decide (ctx.rowCols r ∩ used = ∅)).length

/-- Python's `min(iterable, key=k)`: evaluate the key once per element, return the
first element attaining the minimal key (0 on the empty list, where Python raises). -/
def pyMin (key : Nat → Nat) (l : List Nat) : Nat :=
  match l.map fun c => (key c, c) with
  | [] => 0
  | p :: ps => (ps.foldl (fun best q => if q.1 < best.1 then q else best) p).2

/-- `choose()`: the unused column with the fewest non-conflicting candidate rows.
`universe - used` is iterated in ascending order (CPython small-int set order). -/
def Ctx.choose (ctx : Ctx) (used : Finset Nat) : Nat :=
  pyMin (ctx.keyLen used) (ascList (ctx.univ \ used))

/-- The solver's mutable state: `sol` (partial solution stack), `used` (covered
columns), `tries`, plus the instrumentation-only `trace` of `used`-sets observed at
each column-selection step. -/
structure SearchState where
  sol : List Nat
  used : Finset Nat
  tries : Nat
  trace : List (Finset Nat)
deriving DecidableEq

/-- The loop `for row in col_to_rows[col]` of `search`, parameterized by the
recursive call `recur`.  Mirrors the source line by line: count the try, skip on
overlap, push (`sol.append`, `used.update`), recurse, propagate success, undo
(`sol.pop()`, `used.difference_update`). -/
def tryRows (ctx : Ctx) (recur : SearchState → Option (Bool × SearchState)) :
    List Nat → SearchState → Option (Bool × SearchState)
  | [], st => some (false, st)
  | r :: rs, st =>
    let st1 : SearchState := { st with tries := st.tries + 1 }
    let rc := ctx.rowCols r
    if rc ∩ st.used ≠ ∅ then tryRows ctx recur rs st1
    else
      match recur { st1 with sol := st1.sol ++ [r], used := st1.used ∪ rc } with
      | none => none
      | some (true, st2) => some (true, st2)
      | some (false, st2) =>
        tryRows ctx recur rs { st2 with sol := st2.sol.dropLast, used := st2.used \ rc }

/-- `search()` with fuel bounding the recursion depth (the Python recursion is
unbounded; fuel 8 is proved sufficient below, and extra fuel is irrelevant).
`none` means the fuel ran out before the recursion bottomed out. -/
def searchF (ctx : Ctx) : Nat → SearchState → Option (Bool × SearchState)
  | 0, st =>
    if st.used = ctx.univ then some (true, st)
    else
      tryRows ctx (fun _ => none) (ctx.rows (ctx.choose st.used))
        { st with trace := st.trace ++ [st.used] }
  | fuel + 1, st =>
    if st.used = ctx.univ then some (true, st)
    else
      tryRows ctx (searchF ctx fuel) (ctx.rows (ctx.choose st.used))
        { st with trace := st.trace ++ [st.used] }

/-- The initial search state (`sol = []`, `used = set()`, `tries = 0`). -/
def initState : SearchState := ⟨[], ∅, 0, []⟩

/-- `solve_exact_cover`: returns `(solution?, tries)`.  Defined with fuel 8, which
is proved to suffice (`search_fuel_8_isSome`) and to agree with any larger fuel
(`searchF_fuel_irrelevant`), hence with the unbounded Python recursion.  The `none`
branch is unreachable for placement lists whose tags are all known pieces. -/
def solve_exact_cover (pls : List Placement) (excluded : Finset Cell) :
    Option (List Placement) × Nat :=
  let ctx := mkCtx pls excluded
  match searchF ctx 8 initState with
  | some (true, st) => (some (st.sol.map fun r => pls.getD r default), st.tries)
  | some (false, st) => (none, st.tries)
  | none => (none, 0)

/-! ## Invariants of the backtracking search -/

/-- The union of the full column sets of the rows of a partial solution
(in the source, `used` is kept equal to this union). -/
def solCols (ctx : Ctx) : List Nat → Finset Nat
  | [] => ∅
  | r :: rs => ctx.rowCols r ∪ solCols ctx rs

/-- The search-state invariant: `used` is exactly the union of the chosen rows'
column sets, the chosen rows are pairwise column-disjoint, and all row ids are
in range.  (`tries` and `trace` are unconstrained instrumentation.) -/
def Valid (ctx : Ctx) (st : SearchState) : Prop :=
  st.used = solCols ctx st.sol ∧
  st.sol.Pairwise (fun a b => Disjoint (ctx.rowCols a) (ctx.rowCols b)) ∧
  ∀ r ∈ st.sol, r < ctx.pls.length

/-- What one call of the search guarantees, by outcome: on success the final state
is valid and covers the whole universe; on failure `sol` and `used` are restored to
their values at entry; `none` is fuel exhaustion. -/
def OutSpec (ctx : Ctx) (st : SearchState) : Option (Bool × SearchState) → Prop
  | none => True
  | some (true, st') => Valid ctx st' ∧ st'.used = ctx.univ
  | some (false, st') => st'.sol = st.sol ∧ st'.used = st.used

lemma OutSpec_of_eq (ctx : Ctx) {st st' : SearchState} (hs : st'.sol = st.sol)
    (hu : st'.used = st.used) {res : Option (Bool × SearchState)}
    (h : OutSpec ctx st' res) : OutSpec ctx st res := by
  match res with
  | none => trivial
  | some (true, stf) => exact h
  | some (false, stf) => exact ⟨h.1.trans hs, h.2.trans hu⟩

lemma solCols_concat (ctx : Ctx) (l : List Nat) (r : Nat) :
    solCols ctx (l ++ [r]) = solCols ctx l ∪ ctx.rowCols r := by
  induction l with
  | nil => simp [solCols]
  | cons a as ih => simp [solCols, ih, Finset.union_assoc]

lemma rowCols_subset_solCols (ctx : Ctx) {l : List Nat} {a : Nat} (h : a ∈ l) :
    ctx.rowCols a ⊆ solCols ctx l := by
  induction l with
  | nil => cases h
  | cons b bs ih =>
    rcases List.mem_cons.mp h with h1 | h2
    · subst h1; exact Finset.subset_union_left
    · exact (ih h2).trans Finset.subset_union_right

lemma tryRows_spec (ctx : Ctx) (recur : SearchState → Option (Bool × SearchState))
    (hrec : ∀ st, Valid ctx st → OutSpec ctx st (recur st)) :
    ∀ rs st, (∀ r ∈ rs, r < ctx.pls.length) → Valid ctx st →
      OutSpec ctx st (tryRows ctx recur rs st) := by
  intro rs
  induction rs with
  | nil => intro st _ _; exact ⟨rfl, rfl⟩
  | cons r rs ih =>
    intro st hb hv
    show OutSpec ctx st (tryRows ctx recur (r :: rs) st)
    rw [tryRows]
    by_cases hov : ctx.rowCols r ∩ st.used = ∅
    · rw [if_neg (not_not_intro hov)]
      have hdisj : Disjoint (ctx.rowCols r) st.used :=
        Finset.disjoint_iff_inter_eq_empty.mpr hov
      set st2 : SearchState :=
        ⟨st.sol ++ [r], st.used ∪ ctx.rowCols r, st.tries + 1, st.trace⟩ with hst2
      have hv2 : Valid ctx st2 := by
        refine ⟨?_, ?_, ?_⟩
        · show st.used ∪ ctx.rowCols r = solCols ctx (st.sol ++ [r])
          rw [solCols_concat, hv.1]
        · show (st.sol ++ [r]).Pairwise _
          refine List.pairwise_append.mpr ⟨hv.2.1, List.pairwise_singleton _ _, ?_⟩
          intro a ha b hbm
          rcases List.mem_cons.mp hbm with rfl | hc
          · exact Finset.disjoint_of_subset_left
              (hv.1 ▸ rowCols_subset_solCols ctx ha) hdisj.symm
          · cases hc
        · intro a ha
          rcases List.mem_append.mp ha with h1 | h2
          · exact hv.2.2 a h1
          · rcases List.mem_cons.mp h2 with rfl | hc
            · exact hb a (List.mem_cons_self _ _)
            · cases hc
      have hout := hrec st2 hv2
      match hres : recur st2 with
      | none => trivial
      | some (true, st3) =>
        rw [hres] at hout; exact hout
      | some (false, st3) =>
        rw [hres] at hout
        set st4 : SearchState :=
          ⟨st3.sol.dropLast, st3.used \ ctx.rowCols r, st3.tries, st3.trace⟩ with hst4
        have hsol4 : st4.sol = st.sol := by
          show st3.sol.dropLast = st.sol
          rw [hout.1]; exact List.dropLast_concat
        have hused4 : st4.used = st.used := by
          show st3.used \ ctx.rowCols r = st.used
          rw [hout.2]
          have := hdisj.symm.sup_sdiff_cancel_right (b := ctx.rowCols r)
          simpa using this
        have hv4 : Valid ctx st4 := by
          refine ⟨?_, ?_, ?_⟩
          · rw [hused4, hsol4]; exact hv.1
          · rw [hsol4]; exact hv.2.1
          · rw [hsol4]; exact hv.2.2
        have := ih st4 (fun x hx => hb x (List.mem_cons_of_mem _ hx)) hv4
        exact OutSpec_of_eq ctx hsol4 hused4 this
    · rw [if_pos hov]
      have hv1 : Valid ctx ⟨st.sol, st.used, st.tries + 1, st.trace⟩ := hv
      exact ih _ (fun x hx => hb x (List.mem_cons_of_mem _ hx)) hv1

/-- Row ids delivered by the column index of a built context are in range. -/
lemma lookup_mem_pairs {c : Nat} {l : List Nat} :
    ∀ {ps : List (Nat × List Nat)}, ps.lookup c = some l → (c, l) ∈ ps := by
  intro ps
  induction ps with
  | nil => intro h; cases h
  | cons p ps ih =>
    rcases p with ⟨k, v⟩
    intro h
    rw [List.lookup] at h
    by_cases hc : c = k
    · have hb : (c == k) = true := beq_iff_eq.mpr hc
      rw [hb] at h
      simp only [Option.some.injEq] at h
      subst hc; subst h
      exact List.mem_cons_self _ _
    · have hb : (c == k) = false := beq_eq_false_iff_ne.mpr hc
      rw [hb] at h
      exact List.mem_cons_of_mem _ (ih h)

lemma mkCtx_rows_lt (pls : List Placement) (ex : Finset Cell) :
    ∀ c r, r ∈ (mkCtx pls ex).rows c → r < pls.length := by
  intro c r hr
  unfold Ctx.rows at hr
  cases hl : List.lookup c (mkCtx pls ex).ctr with
  | none => rw [hl] at hr; cases hr
  | some l =>
    rw [hl] at hr
    have hmem := lookup_mem_pairs hl
    have : (mkCtx pls ex).ctr = mkColToRows (mkCtx pls ex).univ pls
        (mkCtx pls ex).bCols (mkCtx pls ex).base := rfl
    rw [this] at hmem
    unfold mkColToRows at hmem
    rcases List.mem_map.mp hmem with ⟨cc, _, hcc⟩
    have hleq : l = (List.range pls.length).filter
        (fun i => decide (cc ∈ rowColsOf (mkCtx pls ex).bCols (mkCtx pls ex).base
          (pls.getD i default))) := (congrArg Prod.snd hcc).symm
    rw [hleq] at hr
    exact List.mem_range.mp (List.mem_filter.mp hr).1

lemma searchF_spec (ctx : Ctx)
    (hlen : ∀ c r, r ∈ ctx.rows c → r < ctx.pls.length) :
    ∀ fuel st, Valid ctx st → OutSpec ctx st (searchF ctx fuel st) := by
  intro fuel
  induction fuel with
  | zero =>
    intro st hv
    rw [searchF]
    by_cases ht : st.used = ctx.univ
    · rw [if_pos ht]; exact ⟨hv, ht⟩
    · rw [if_neg ht]
      have hv' : Valid ctx ⟨st.sol, st.used, st.tries, st.trace ++ [st.used]⟩ := hv
      exact OutSpec_of_eq ctx rfl rfl
        (tryRows_spec ctx (fun _ => none)
          (fun st0 _ => (trivial : OutSpec ctx st0 none)) _ _
          (fun r hr => hlen _ r hr) hv')
  | succ f ihf =>
    intro st hv
    rw [searchF]
    by_cases ht : st.used = ctx.univ
    · rw [if_pos ht]; exact ⟨hv, ht⟩
    · rw [if_neg ht]
      have hv' : Valid ctx ⟨st.sol, st.used, st.tries, st.trace ++ [st.used]⟩ := hv
      exact OutSpec_of_eq ctx rfl rfl
        (tryRows_spec ctx _ ihf _ _ (fun r hr => hlen _ r hr) hv')

/-! ## Termination: fuel 8 suffices and extra fuel is irrelevant -/

/-- The set of the 8 synthetic piece columns. -/
def pieceColsSet (base : Nat) : Finset Nat := (sortedTags.map (pieceColFn base)).toFinset

/-- The piece column of a row always belongs to its full column set. -/
lemma pieceCol_mem_rowCols (ctx : Ctx) (r : Nat) :
    pieceColFn ctx.base (ctx.pls.getD r default).piece ∈ ctx.rowCols r := by
  unfold Ctx.rowCols rowColsOf
  exact Finset.mem_union_right _ (Finset.mem_singleton_self _)

/-- For placement lists whose tags are all known pieces, every row's piece column
lies in the piece-column set. -/
lemma pieceCol_mem_set {pls : List Placement} (hts : ∀ pl ∈ pls, pl.piece ∈ pieceTags)
    {r : Nat} (hr : r < pls.length) (base : Nat) :
    pieceColFn base (pls.getD r default).piece ∈ pieceColsSet base := by
  have hmem : pls.getD r default ∈ pls := by
    rw [List.getD_eq_getElem pls default hr]; exact List.getElem_mem hr
  unfold pieceColsSet
  rw [List.mem_toFinset]
  exact List.mem_map_of_mem _ (hts _ hmem)

lemma tryRows_isSome (ctx : Ctx) (recur : SearchState → Option (Bool × SearchState))
    (m : Nat)
    (hspec : ∀ st, Valid ctx st → OutSpec ctx st (recur st))
    (hsome : ∀ st, Valid ctx st → (pieceColsSet ctx.base \ st.used).card < m →
      (recur st).isSome) :
    ∀ rs st, (∀ r ∈ rs, r < ctx.pls.length ∧
        pieceColFn ctx.base (ctx.pls.getD r default).piece ∈ pieceColsSet ctx.base) →
      Valid ctx st → (pieceColsSet ctx.base \ st.used).card ≤ m →
      (tryRows ctx recur rs st).isSome := by
  intro rs
  induction rs with
  | nil => intro st _ _ _; rw [tryRows]; rfl
  | cons r rs ih =>
    intro st hb hv hm
    rw [tryRows]
    by_cases hov : ctx.rowCols r ∩ st.used = ∅
    · rw [if_neg (not_not_intro hov)]
      have hdisj : Disjoint (ctx.rowCols r) st.used :=
        Finset.disjoint_iff_inter_eq_empty.mpr hov
      set st2 : SearchState :=
        ⟨st.sol ++ [r], st.used ∪ ctx.rowCols r, st.tries + 1, st.trace⟩ with hst2
      have hv2 : Valid ctx st2 := by
        refine ⟨?_, ?_, ?_⟩
        · show st.used ∪ ctx.rowCols r = solCols ctx (st.sol ++ [r])
          rw [solCols_concat, hv.1]
        · refine List.pairwise_append.mpr ⟨hv.2.1, List.pairwise_singleton _ _, ?_⟩
          intro a ha b hbm
          rcases List.mem_cons.mp hbm with rfl | hc
          · exact Finset.disjoint_of_subset_left
              (hv.1 ▸ rowCols_subset_solCols ctx ha) hdisj.symm
          · cases hc
        · intro a ha
          rcases List.mem_append.mp ha with h1 | h2
          · exact hv.2.2 a h1
          · rcases List.mem_cons.mp h2 with rfl | hc
            · exact (hb a (List.mem_cons_self _ _)).1
            · cases hc
      have hpc : pieceColFn ctx.base (ctx.pls.getD r default).piece ∈
          pieceColsSet ctx.base \ st.used := by
        rw [Finset.mem_sdiff]
        refine ⟨(hb r (List.mem_cons_self _ _)).2, ?_⟩
        exact Finset.disjoint_left.mp hdisj (pieceCol_mem_rowCols ctx r)
      have hcard2 : (pieceColsSet ctx.base \ st2.used).card <
          (pieceColsSet ctx.base \ st.used).card := by
        apply Finset.card_lt_card
        rw [Finset.ssubset_iff_of_subset
          (Finset.sdiff_subset_sdiff (le_refl _) Finset.subset_union_left)]
        refine ⟨pieceColFn ctx.base (ctx.pls.getD r default).piece, hpc, ?_⟩
        rw [Finset.mem_sdiff]
        intro hx
        exact hx.2 (Finset.mem_union_right _ (pieceCol_mem_rowCols ctx r))
      have hsome2 := hsome st2 hv2 (lt_of_lt_of_le hcard2 hm)
      match hres : recur st2 with
      | none => rw [hres] at hsome2; cases hsome2
      | some (true, st3) => rfl
      | some (false, st3) =>
        have hout := hspec st2 hv2
        rw [hres] at hout
        set st4 : SearchState :=
          ⟨st3.sol.dropLast, st3.used \ ctx.rowCols r, st3.tries, st3.trace⟩ with hst4
        have hsol4 : st4.sol = st.sol := by
          show st3.sol.dropLast = st.sol
          rw [hout.1]; exact List.dropLast_concat
        have hused4 : st4.used = st.used := by
          show st3.used \ ctx.rowCols r = st.used
          rw [hout.2]
          have := hdisj.symm.sup_sdiff_cancel_right (b := ctx.rowCols r)
          simpa using this
        have hv4 : Valid ctx st4 := by
          refine ⟨?_, ?_, ?_⟩
          · rw [hused4, hsol4]; exact hv.1
          · rw [hsol4]; exact hv.2.1
          · rw [hsol4]; exact hv.2.2
        exact ih st4 (fun x hx => hb x (List.mem_cons_of_mem _ hx)) hv4
          (by rw [hused4]; exact hm)
    · rw [if_pos hov]
      exact ih _ (fun x hx => hb x (List.mem_cons_of_mem _ hx)) hv hm

lemma searchF_isSome (ctx : Ctx)
    (hlen : ∀ c r, r ∈ ctx.rows c → r < ctx.pls.length)
    (hpcs : ∀ c r, r ∈ ctx.rows c →
      pieceColFn ctx.base (ctx.pls.getD r default).piece ∈ pieceColsSet ctx.base) :
    ∀ fuel st, Valid ctx st → (pieceColsSet ctx.base \ st.used).card ≤ fuel →
      (searchF ctx fuel st).isSome := by
  intro fuel
  induction fuel with
  | zero =>
    intro st hv hm
    rw [searchF]
    by_cases ht : st.used = ctx.univ
    · rw [if_pos ht]; rfl
    · rw [if_neg ht]
      have hv' : Valid ctx ⟨st.sol, st.used, st.tries, st.trace ++ [st.used]⟩ := hv
      exact tryRows_isSome ctx (fun _ => none) 0
        (fun st0 _ => (trivial : OutSpec ctx st0 none))
        (fun st0 _ hlt => absurd hlt (Nat.not_lt_zero _)) _ _
        (fun r hr => ⟨hlen _ r hr, hpcs _ r hr⟩) hv' hm
  | succ f ihf =>
    intro st hv hm
    rw [searchF]
    by_cases ht : st.used = ctx.univ
    · rw [if_pos ht]; rfl
    · rw [if_neg ht]
      have hv' : Valid ctx ⟨st.sol, st.used, st.tries, st.trace ++ [st.used]⟩ := hv
      exact tryRows_isSome ctx (searchF ctx f) (f + 1)
        (searchF_spec ctx hlen f)
        (fun st0 hv0 hlt => ihf st0 hv0 (Nat.lt_succ_iff.mp hlt)) _ _
        (fun r hr => ⟨hlen _ r hr, hpcs _ r hr⟩) hv' hm

lemma tryRows_mono (ctx : Ctx)
    {recur₁ recur₂ : SearchState → Option (Bool × SearchState)}
    (h : ∀ st x, recur₁ st = some x → recur₂ st = some x) :
    ∀ rs st x, tryRows ctx recur₁ rs st = some x → tryRows ctx recur₂ rs st = some x := by
  intro rs
  induction rs with
  | nil => intro st x hx; rw [tryRows] at hx ⊢; exact hx
  | cons r rs ih =>
    intro st x hx
    rw [tryRows] at hx ⊢
    by_cases hov : ctx.rowCols r ∩ st.used = ∅
    · rw [if_neg (not_not_intro hov)] at hx ⊢
      match hres : recur₁ ⟨st.sol ++ [r], st.used ∪ ctx.rowCols r,
          st.tries + 1, st.trace⟩ with
      | none => rw [hres] at hx; cases hx
      | some (true, st3) =>
        rw [hres] at hx
        rw [h _ _ hres]
        exact hx
      | some (false, st3) =>
        rw [hres] at hx
        rw [h _ _ hres]
        exact ih _ x hx
    · rw [if_pos hov] at hx ⊢
      exact ih _ x hx

lemma searchF_succ_mono (ctx : Ctx) :
    ∀ fuel st x, searchF ctx fuel st = some x → searchF ctx (fuel + 1) st = some x := by
  intro fuel
  induction fuel with
  | zero =>
    intro st x hx
    rw [searchF] at hx
    rw [searchF]
    by_cases ht : st.used = ctx.univ
    · rw [if_pos ht] at hx ⊢; exact hx
    · rw [if_neg ht] at hx ⊢
      exact tryRows_mono ctx (fun st0 x0 h0 => by cases h0) _ _ _ hx
  | succ f ihf =>
    intro st x hx
    rw [searchF] at hx
    rw [searchF]
    by_cases ht : st.used = ctx.univ
    · rw [if_pos ht] at hx ⊢; exact hx
    · rw [if_neg ht] at hx ⊢
      exact tryRows_mono ctx ihf _ _ _ hx

lemma searchF_mono (ctx : Ctx) {f f' : Nat} (hf : f ≤ f') :
    ∀ st x, searchF ctx f st = some x → searchF ctx f' st = some x := by
  induction f', hf using Nat.le_induction with
  | base => exact fun _ _ h => h
  | succ n _ ih => exact fun st x h => searchF_succ_mono ctx n st x (ih st x h)

/-! ## Board-geometry facts -/

lemma BOARD_CELLS_length : BOARD_CELLS.length = 43 := rfl

/-- Membership in `BOARD_CELLS` is exactly cell validity. -/
lemma mem_BOARD_CELLS_iff (rc : Cell) :
    rc ∈ BOARD_CELLS ↔ rc.1 < ROW_WIDTHS.length ∧ rc.2 < ROW_WIDTHS.getD rc.1 0 := by
  constructor
  · revert rc
    have H : ∀ rc ∈ BOARD_CELLS,
        rc.1 < ROW_WIDTHS.length ∧ rc.2 < ROW_WIDTHS.getD rc.1 0 := by decide
    exact H
  · rcases rc with ⟨r, c⟩
    intro h
    have hw : ∀ r', r' < 7 → ROW_WIDTHS.getD r' 0 ≤ 7 := by decide
    have H : ∀ r', r' < 7 → ∀ c', c' < 7 →
        ((r', c') ∈ BOARD_CELLS ∨ ROW_WIDTHS.getD r' 0 ≤ c') := by decide
    have hr : r < 7 := h.1
    rcases H r hr c (lt_of_lt_of_le h.2 (hw r hr)) with hm | hle
    · exact hm
    · exact absurd h.2 (not_lt_of_le hle)

/-- For a valid cell: the column index is below 43, looking the index back up in
`BOARD_CELLS` returns the cell, and the dict lookup succeeds. -/
lemma cellCol_roundtrip : ∀ r, r < 7 → ∀ c, c < 7 →
    ((cellCol (r, c) < 43 ∧ BOARD_CELLS.getD (cellCol (r, c)) (7, 7) = (r, c) ∧
      (CELL_TO_COL (r, c)).isSome) ∨ ROW_WIDTHS.getD r 0 ≤ c) := by decide

/-- Convenience restatement of `cellCol_roundtrip` with a validity hypothesis. -/
lemma cellCol_roundtrip' {r c : Nat} (hr : r < 7) (hc : c < ROW_WIDTHS.getD r 0) :
    cellCol (r, c) < 43 ∧ BOARD_CELLS.getD (cellCol (r, c)) (7, 7) = (r, c) ∧
    (CELL_TO_COL (r, c)).isSome := by
  have hw : ∀ r', r' < 7 → ROW_WIDTHS.getD r' 0 ≤ 7 := by decide
  rcases cellCol_roundtrip r hr c (lt_of_lt_of_le hc (hw r hr)) with h | h
  · exact h
  · exact absurd hc (not_lt_of_le h)

/-- The reverse roundtrip: the dict lookup of the `i`-th cell is `some i`. -/
lemma col_cellCol_roundtrip : ∀ i, i < 43 →
    CELL_TO_COL (BOARD_CELLS.getD i (7, 7)) = some i := by decide

/-- Valid cells (`(r, c)` with `c` under the row width) have distinct column
indices: follows from the getD roundtrip. -/
lemma cellCol_inj_on_valid {a b : Cell} (ha : a ∈ BOARD_CELLS) (hb : b ∈ BOARD_CELLS)
    (h : cellCol a = cellCol b) : a = b := by
  rcases a with ⟨ra, ca⟩
  rcases b with ⟨rb, cb⟩
  have hva := (mem_BOARD_CELLS_iff (ra, ca)).mp ha
  have hvb := (mem_BOARD_CELLS_iff (rb, cb)).mp hb
  have r1 := (cellCol_roundtrip' hva.1 hva.2).2.1
  have r2 := (cellCol_roundtrip' hvb.1 hvb.2).2.1
  rw [← r1, ← r2, h]

lemma mem_boardColsOf {ex : Finset Cell} {rc : Cell} (hmem : rc ∈ BOARD_CELLS)
    (hex : rc ∉ ex) : cellCol rc ∈ boardColsOf ex := by
  unfold boardColsOf
  rw [List.mem_toFinset]
  exact List.mem_map_of_mem _ (List.mem_filter.mpr ⟨hmem, by simpa using hex⟩)

/-! ## Piece-column facts -/

lemma map_pieceColFn (base : Nat) :
    sortedTags.map (pieceColFn base) = (List.range 8).map (base + ·) := rfl

lemma pieceColsSet_card (base : Nat) : (pieceColsSet base).card = 8 := by
  unfold pieceColsSet
  rw [map_pieceColFn]
  rw [List.toFinset_card_of_nodup
    (List.Nodup.map (fun a b h => by omega) (List.nodup_range 8))]
  rfl

lemma base_le_of_mem_pieceColsSet {base x : Nat} (h : x ∈ pieceColsSet base) :
    base ≤ x := by
  unfold pieceColsSet at h
  rw [List.mem_toFinset, List.mem_map] at h
  rcases h with ⟨t, _, rfl⟩
  exact Nat.le_add_right _ _

lemma lt_base_of_mem_boardColsOf {ex : Finset Cell} {x : Nat}
    (h : x ∈ boardColsOf ex) : x < (boardColsOf ex).sup id + 1 :=
  Nat.lt_succ_of_le (Finset.le_sup (f := id) h)

lemma disjoint_boardCols_pieceCols (ex : Finset Cell) :
    Disjoint (boardColsOf ex) (pieceColsSet ((boardColsOf ex).sup id + 1)) := by
  rw [Finset.disjoint_left]
  intro x hx hp
  have h1 := lt_base_of_mem_boardColsOf hx
  have h2 := base_le_of_mem_pieceColsSet hp
  omega

lemma mkCtx_bCols (pls : List Placement) (ex : Finset Cell) :
    (mkCtx pls ex).bCols = boardColsOf ex := rfl

lemma mkCtx_base (pls : List Placement) (ex : Finset Cell) :
    (mkCtx pls ex).base = (boardColsOf ex).sup id + 1 := rfl

lemma mkCtx_univ (pls : List Placement) (ex : Finset Cell) :
    (mkCtx pls ex).univ = boardColsOf ex ∪ pieceColsSet ((mkCtx pls ex).base) := rfl

lemma mkCtx_pls (pls : List Placement) (ex : Finset Cell) :
    (mkCtx pls ex).pls = pls := rfl

lemma mkCtx_pcs (pls : List Placement) (ex : Finset Cell)
    (hts : ∀ pl ∈ pls, pl.piece ∈ pieceTags) :
    ∀ c r, r ∈ (mkCtx pls ex).rows c →
      pieceColFn (mkCtx pls ex).base ((mkCtx pls ex).pls.getD r default).piece ∈
        pieceColsSet (mkCtx pls ex).base := by
  intro c r hr
  exact pieceCol_mem_set hts (mkCtx_rows_lt pls ex c r hr) _

/-! ## Python `min` with a key -/

lemma foldl_min_spec (p : Nat × Nat) (ps : List (Nat × Nat)) :
    (ps.foldl (fun best q => if q.1 < best.1 then q else best) p) ∈ p :: ps ∧
    ∀ q ∈ p :: ps,
      (ps.foldl (fun best q => if q.1 < best.1 then q else best) p).1 ≤ q.1 := by
  induction ps generalizing p with
  | nil =>
    refine ⟨List.mem_cons_self _ _, ?_⟩
    intro x hx
    rcases List.mem_cons.mp hx with rfl | h
    · exact le_refl _
    · cases h
  | cons q qs ih =>
    by_cases h : q.1 < p.1
    · have hred : (q :: qs).foldl (fun best q => if q.1 < best.1 then q else best) p =
          qs.foldl (fun best q => if q.1 < best.1 then q else best) q := by
        simp [List.foldl_cons, if_pos h]
      rw [hred]
      rcases ih q with ⟨hmem, hle⟩
      constructor
      · rcases List.mem_cons.mp hmem with h1 | h2
        · rw [h1]; exact List.mem_cons_of_mem _ (List.mem_cons_self _ _)
        · exact List.mem_cons_of_mem _ (List.mem_cons_of_mem _ h2)
      · intro x hx
        rcases List.mem_cons.mp hx with rfl | hx2
        · exact le_trans (hle q (List.mem_cons_self _ _)) (le_of_lt h)
        · exact hle x hx2
    · have hred : (q :: qs).foldl (fun best q => if q.1 < best.1 then q else best) p =
          qs.foldl (fun best q => if q.1 < best.1 then q else best) p := by
        simp [List.foldl_cons, if_neg h]
      rw [hred]
      rcases ih p with ⟨hmem, hle⟩
      constructor
      · rcases List.mem_cons.mp hmem with h1 | h2
        · rw [h1]; exact List.mem_cons_self _ _
        · exact List.mem_cons_of_mem _ (List.mem_cons_of_mem _ h2)
      · intro x hx
        rcases List.mem_cons.mp hx with rfl | hx2
        · exact hle x (List.mem_cons_self _ _)
        · rcases List.mem_cons.mp hx2 with rfl | hx3
          · exact le_trans (hle p (List.mem_cons_self _ _)) (le_of_not_lt h)
          · exact hle x (List.mem_cons_of_mem _ hx3)

/-- `pyMin key l` is an element of `l` attaining the minimal key. -/
lemma pyMin_spec (key : Nat → Nat) (l : List Nat) (hne : l ≠ []) :
    pyMin key l ∈ l ∧ ∀ x ∈ l, key (pyMin key l) ≤ key x := by
  unfold pyMin
  cases hm : l.map fun c => (key c, c) with
  | nil =>
    exact absurd (List.map_eq_nil_iff.mp hm) hne
  | cons p ps =>
    rcases foldl_min_spec p ps with ⟨hmem, hle⟩
    have hmem' : (ps.foldl (fun best q => if q.1 < best.1 then q else best) p) ∈
        l.map fun c => (key c, c) := by rw [hm]; exact hmem
    rcases List.mem_map.mp hmem' with ⟨c, hc, hcp⟩
    constructor
    · show (ps.foldl (fun best q => if q.1 < best.1 then q else best) p).2 ∈ l
      rw [← hcp]; exact hc
    · intro x hx
      have hxp : (key x, x) ∈ p :: ps := by
        rw [← hm]; exact List.mem_map_of_mem _ hx
      have hmin := hle (key x, x) hxp
      show key (ps.foldl (fun best q => if q.1 < best.1 then q else best) p).2 ≤ key x
      have h1 : (ps.foldl (fun best q => if q.1 < best.1 then q else best) p).1 = key c := by
        rw [← hcp]
      have h2 : (ps.foldl (fun best q => if q.1 < best.1 then q else best) p).2 = c := by
        rw [← hcp]
      rw [h2, ← h1]
      exact hmin

/-! ## Placement generation: characterization and legality -/

/-- Membership in the generated placement list, by unfolding the three nested
loops and the all-cells test. -/
lemma mem_generate_placements {excluded : Finset Cell} {pl : Placement} :
    pl ∈ generate_placements excluded ↔
      ∃ ng ∈ PIECES, ∃ t ∈ all_transforms ng.2, ∃ tr tc : Nat,
        tr < ROW_WIDTHS.length - listMax (t.1.map Prod.fst) ∧
        tc < ROW_WIDTHS.getD tr 0 - listMax (t.1.map Prod.snd) ∧
        (placementCells t.1 tr tc).all (cellOk excluded) = true ∧
        pl = ⟨ng.1, List.insertionSort (· ≤ ·) ((placementCells t.1 tr tc).map cellCol),
              (tr, tc), t.2.1, t.2.2⟩ := by
  unfold generate_placements piecePlacements
  simp only [List.mem_flatMap, List.mem_filterMap, List.mem_range,
    Option.ite_none_right_eq_some, Option.some.injEq]
  constructor
  · rintro ⟨ng, hng, t, ht, tr, htr, tc, htc, hall, heq⟩
    exact ⟨ng, hng, t, ht, tr, tc, htr, htc, hall, heq.symm⟩
  · rintro ⟨ng, hng, t, ht, tr, tc, htr, htc, hall, heq⟩
    exact ⟨ng, hng, t, ht, tr, htr, tc, htc, hall, heq.symm⟩

/-- Concrete facts about the 46 orientations of the 8 pieces: each coordinate list
is duplicate-free and has the piece's cell count (6 for `E`, 5 otherwise). -/
lemma orientation_facts : ∀ ng ∈ PIECES, ∀ t ∈ all_transforms ng.2,
    (t.1 : List Cell).Nodup ∧ t.1.length = (if ng.1 = "E" then 6 else 5) := by decide

/-- Tags of generated placements are tags of pieces. -/
lemma PIECES_tags : ∀ ng ∈ PIECES, ng.1 ∈ pieceTags := by decide

lemma cellOk_spec {excluded : Finset Cell} {rc : Cell} (h : cellOk excluded rc = true) :
    rc.1 < ROW_WIDTHS.length ∧ rc.2 < ROW_WIDTHS.getD rc.1 0 ∧ rc ∉ excluded := by
  unfold cellOk at h
  rw [Bool.and_eq_true, decide_eq_true_eq, Bool.not_eq_true', decide_eq_false_iff_not] at h
  refine ⟨?_, h.1, h.2⟩
  by_contra hge
  rw [List.getD_eq_default _ _ (le_of_not_lt hge)] at h
  exact Nat.not_lt_zero _ h.1

/-- Every cell of a legal placement is a member of `BOARD_CELLS` and avoids the
excluded set. -/
lemma placement_cells_props {excluded : Finset Cell} {cells : List Cell}
    (hall : cells.all (cellOk excluded) = true) :
    ∀ rc ∈ cells, rc ∈ BOARD_CELLS ∧ rc ∉ excluded := by
  intro rc hrc
  have h := cellOk_spec (List.all_eq_true.mp hall rc hrc)
  exact ⟨(mem_BOARD_CELLS_iff rc).mpr ⟨h.1, h.2.1⟩, h.2.2⟩

/-- The anchored cells of a duplicate-free orientation are duplicate-free. -/
lemma placementCells_nodup {coords : List Cell} (h : coords.Nodup) (tr tc : Nat) :
    (placementCells coords tr tc).Nodup := by
  unfold placementCells
  refine List.Nodup.map ?_ h
  intro a b hab
  have h1 : tr + a.1 = tr + b.1 := congrArg Prod.fst hab
  have h2 : tc + a.2 = tc + b.2 := congrArg Prod.snd hab
  have : a.1 = b.1 := by omega
  have : a.2 = b.2 := by omega
  cases a; cases b; simp_all

/-- Everything claim C5 asserts about one generated placement, plus the facts the
solver proofs need (`squares ⊆ boardColsOf`). -/
lemma generate_placements_legal {excluded : Finset Cell} {pl : Placement}
    (hpl : pl ∈ generate_placements excluded) :
    pl.piece ∈ pieceTags ∧
    pl.squares.Nodup ∧
    pl.squares.length = (if pl.piece = "E" then 6 else 5) ∧
    (∀ s ∈ pl.squares, s < 43 ∧
      (BOARD_CELLS.getD s (7, 7)).2 < ROW_WIDTHS.getD (BOARD_CELLS.getD s (7, 7)).1 0 ∧
      BOARD_CELLS.getD s (7, 7) ∉ excluded) ∧
    pl.squares.toFinset ⊆ boardColsOf excluded := by
  rcases mem_generate_placements.mp hpl with
    ⟨ng, hng, t, ht, tr, tc, _, _, hall, heq⟩
  have hofacts := orientation_facts ng hng t ht
  have hcellprops := placement_cells_props hall
  subst heq
  have hcellmem : ∀ rc ∈ placementCells t.1 tr tc, rc ∈ BOARD_CELLS :=
    fun rc hrc => (hcellprops rc hrc).1
  have hperm : (List.insertionSort (· ≤ ·)
      ((placementCells t.1 tr tc).map cellCol)).Perm
      ((placementCells t.1 tr tc).map cellCol) :=
    List.perm_insertionSort _ _
  have hmemsq : ∀ s, s ∈ List.insertionSort (· ≤ ·)
      ((placementCells t.1 tr tc).map cellCol) ↔
      ∃ rc ∈ placementCells t.1 tr tc, cellCol rc = s := by
    intro s
    rw [hperm.mem_iff, List.mem_map]
  refine ⟨PIECES_tags ng hng, ?_, ?_, ?_, ?_⟩
  · rw [hperm.nodup_iff]
    refine List.Nodup.map_on ?_ (placementCells_nodup hofacts.1 tr tc)
    intro x hx y hy hxy
    exact cellCol_inj_on_valid (hcellmem x hx) (hcellmem y hy) hxy
  · show (List.insertionSort (· ≤ ·)
      ((placementCells t.1 tr tc).map cellCol)).length = _
    rw [hperm.length_eq, List.length_map]
    unfold placementCells
    rw [List.length_map]
    exact hofacts.2
  · intro s hs
    rcases (hmemsq s).mp hs with ⟨rc, hrc, rfl⟩
    have hv := (mem_BOARD_CELLS_iff rc).mp (hcellmem rc hrc)
    have hrt := cellCol_roundtrip' hv.1 hv.2
    rw [hrt.2.1]
    exact ⟨hrt.1, hv.2, (hcellprops rc hrc).2⟩
  · intro s hs
    rw [List.mem_toFinset] at hs
    rcases (hmemsq s).mp hs with ⟨rc, hrc, rfl⟩
    exact mem_boardColsOf (hcellmem rc hrc) (hcellprops rc hrc).2

/-- A placement list is usable by the solver proofs: tags are known pieces and
squares are non-excluded board columns.  `generate_placements` always delivers
this (`generate_placements_ok`). -/
def PlacementsOk (pls : List Placement) (excluded : Finset Cell) : Prop :=
  ∀ pl ∈ pls, pl.piece ∈ pieceTags ∧ pl.squares.toFinset ⊆ boardColsOf excluded

lemma generate_placements_ok (excluded : Finset Cell) :
    PlacementsOk (generate_placements excluded) excluded := by
  intro pl hpl
  have h := generate_placements_legal hpl
  exact ⟨h.1, h.2.2.2.2⟩

/-! ## From a covering search state to a valid solution -/

lemma union_split {s t s1 t1 : Finset Nat} (hs : s1 ⊆ s) (ht : t1 ⊆ t)
    (hd : Disjoint s t) (h : s1 ∪ t1 = s ∪ t) : s1 = s ∧ t1 = t := by
  constructor
  · apply Finset.Subset.antisymm hs
    intro x hx
    have hx1 : x ∈ s1 ∪ t1 := by rw [h]; exact Finset.mem_union_left _ hx
    rcases Finset.mem_union.mp hx1 with h1 | h1
    · exact h1
    · exact absurd (ht h1) (Finset.disjoint_left.mp hd hx)
  · apply Finset.Subset.antisymm ht
    intro x hx
    have hx1 : x ∈ s1 ∪ t1 := by rw [h]; exact Finset.mem_union_right _ hx
    rcases Finset.mem_union.mp hx1 with h1 | h1
    · exact absurd (hs h1) (Finset.disjoint_left.mp hd.symm hx)
    · exact h1

lemma mem_pieceColsSet {base x : Nat} :
    x ∈ pieceColsSet base ↔ ∃ t ∈ sortedTags, pieceColFn base t = x := by
  unfold pieceColsSet
  rw [List.mem_toFinset, List.mem_map]

lemma pieceColFn_inj_on_tags (base : Nat) :
    ∀ t1 ∈ sortedTags, ∀ t2 ∈ sortedTags,
      pieceColFn base t1 = pieceColFn base t2 → t1 = t2 := by
  intro t1 h1 t2 h2 h
  have hidx : sortedTags.findIdx (· = t1) = sortedTags.findIdx (· = t2) := by
    unfold pieceColFn at h; omega
  have H : ∀ t ∈ sortedTags, sortedTags.getD (sortedTags.findIdx (· = t)) "" = t := by
    decide
  rw [← H t1 h1, ← H t2 h2, hidx]

/-- `solCols` splits into the union of the rows' board squares and the set of the
rows' piece columns, provided each row's squares lie inside the board columns. -/
lemma solCols_decomp (ctx : Ctx) :
    ∀ L : List Nat,
      (∀ r ∈ L, (ctx.pls.getD r default).squares.toFinset ⊆ ctx.bCols) →
      solCols ctx L =
        (L.foldr (fun r acc => (ctx.pls.getD r default).squares.toFinset ∪ acc) ∅) ∪
        (L.map fun r => pieceColFn ctx.base (ctx.pls.getD r default).piece).toFinset := by
  intro L
  induction L with
  | nil => intro _; simp [solCols]
  | cons a as ih =>
    intro hsub
    have hrow : ctx.rowCols a =
        (ctx.pls.getD a default).squares.toFinset ∪
          {pieceColFn ctx.base (ctx.pls.getD a default).piece} := by
      unfold Ctx.rowCols rowColsOf
      rw [Finset.inter_eq_left.mpr (hsub a (List.mem_cons_self _ _))]
    show ctx.rowCols a ∪ solCols ctx as = _
    rw [hrow, ih (fun r hr => hsub r (List.mem_cons_of_mem _ hr))]
    simp only [List.foldr_cons, List.map_cons, List.toFinset_cons, Finset.insert_eq]
    ext x
    simp only [Finset.mem_union, Finset.mem_singleton]
    tauto

lemma mem_foldr_union (g : Nat → Finset Nat) :
    ∀ (L : List Nat) (x : Nat),
      x ∈ L.foldr (fun r acc => g r ∪ acc) ∅ ↔ ∃ r ∈ L, x ∈ g r := by
  intro L
  induction L with
  | nil => intro x; simp
  | cons a as ih =>
    intro x
    simp only [List.foldr_cons, Finset.mem_union, ih, List.mem_cons]
    constructor
    · rintro (h | ⟨r, hr, hx⟩)
      · exact ⟨a, Or.inl rfl, h⟩
      · exact ⟨r, Or.inr hr, hx⟩
    · rintro ⟨r, rfl | hr, hx⟩
      · exact Or.inl hx
      · exact Or.inr ⟨r, hr, hx⟩

lemma length_filter_eq_one_of_nodup {m : List String} {t : String}
    (hnd : m.Nodup) (hm : t ∈ m) :
    (m.filter fun s => decide (s = t)).length = 1 := by
  induction m with
  | nil => cases hm
  | cons a as ih =>
    rw [List.filter_cons]
    by_cases hat : a = t
    · subst hat
      rw [if_pos (by simp)]
      have hnot : as.filter (fun s => decide (s = a)) = [] := by
        rw [List.filter_eq_nil_iff]
        intro x hx
        have hne : x ≠ a := fun h => (List.nodup_cons.mp hnd).1 (h ▸ hx)
        simp [hne]
      simp [hnot]
    · rw [if_neg (by simpa using hat)]
      have hmem : t ∈ as := by
        rcases List.mem_cons.mp hm with h1 | h1
        · exact absurd h1.symm hat
        · exact h1
      exact ih (List.nodup_cons.mp hnd).2 hmem

/-- The main derivation: a valid search state covering the whole universe maps to a
solution list with the four properties claim C1 asserts. -/
lemma solution_props {pls : List Placement} {ex : Finset Cell}
    (hok : PlacementsOk pls ex) {st : SearchState}
    (hval : Valid (mkCtx pls ex) st) (hcov : st.used = (mkCtx pls ex).univ) :
    (st.sol.map fun r => pls.getD r default).length = 8 ∧
    (∀ t ∈ pieceTags,
      ((st.sol.map fun r => pls.getD r default).filter
        fun pl => decide (pl.piece = t)).length = 1) ∧
    ((st.sol.map fun r => pls.getD r default).foldr
      (fun pl acc => pl.squares.toFinset ∪ acc) ∅) = boardColsOf ex ∧
    (st.sol.map fun r => pls.getD r default).Pairwise
      (fun a b => Disjoint a.squares.toFinset b.squares.toFinset) := by
  have hmemL : ∀ r ∈ st.sol, pls.getD r default ∈ pls := by
    intro r hr
    have := hval.2.2 r hr
    rw [List.getD_eq_getElem pls default this]
    exact List.getElem_mem this
  have hsub : ∀ r ∈ st.sol,
      ((mkCtx pls ex).pls.getD r default).squares.toFinset ⊆ (mkCtx pls ex).bCols :=
    fun r hr => (hok _ (hmemL r hr)).2
  have htag : ∀ r ∈ st.sol, (pls.getD r default).piece ∈ sortedTags :=
    fun r hr => (hok _ (hmemL r hr)).1
  -- decompose the covered columns
  have hdec : solCols (mkCtx pls ex) st.sol =
      (st.sol.foldr (fun r acc => (pls.getD r default).squares.toFinset ∪ acc) ∅) ∪
      (st.sol.map fun r =>
        pieceColFn (mkCtx pls ex).base (pls.getD r default).piece).toFinset :=
    solCols_decomp (mkCtx pls ex) st.sol hsub
  have hcov2 :
      (st.sol.foldr (fun r acc => (pls.getD r default).squares.toFinset ∪ acc) ∅) ∪
      (st.sol.map fun r =>
        pieceColFn (mkCtx pls ex).base (pls.getD r default).piece).toFinset =
      boardColsOf ex ∪ pieceColsSet (mkCtx pls ex).base := by
    rw [← hdec, ← hval.1, hcov, mkCtx_univ]
  have hSQsub :
      (st.sol.foldr (fun r acc => (pls.getD r default).squares.toFinset ∪ acc) ∅) ⊆
      boardColsOf ex := by
    intro x hx
    rcases (mem_foldr_union _ st.sol x).mp hx with ⟨r, hr, hxr⟩
    exact hsub r hr hxr
  have hPCsub : (st.sol.map fun r =>
      pieceColFn (mkCtx pls ex).base (pls.getD r default).piece).toFinset ⊆
      pieceColsSet (mkCtx pls ex).base := by
    intro x hx
    rw [List.mem_toFinset, List.mem_map] at hx
    rcases hx with ⟨r, hr, rfl⟩
    exact mem_pieceColsSet.mpr ⟨(pls.getD r default).piece, htag r hr, rfl⟩
  have hdisjBP : Disjoint (boardColsOf ex) (pieceColsSet (mkCtx pls ex).base) :=
    disjoint_boardCols_pieceCols ex
  have hsplit := union_split hSQsub hPCsub hdisjBP hcov2
  -- each row's full column set, rewritten
  have hrowC : ∀ r ∈ st.sol, (mkCtx pls ex).rowCols r =
      (pls.getD r default).squares.toFinset ∪
        {pieceColFn (mkCtx pls ex).base (pls.getD r default).piece} := by
    intro r hr
    show rowColsOf _ _ _ = _
    unfold rowColsOf
    rw [Finset.inter_eq_left.mpr (hsub r hr)]
    rfl
  have hsq_sub_row : ∀ r ∈ st.sol,
      (pls.getD r default).squares.toFinset ⊆ (mkCtx pls ex).rowCols r := by
    intro r hr
    rw [hrowC r hr]
    exact Finset.subset_union_left
  have hpc_mem_row : ∀ r ∈ st.sol,
      pieceColFn (mkCtx pls ex).base (pls.getD r default).piece ∈
        (mkCtx pls ex).rowCols r := by
    intro r hr
    rw [hrowC r hr]
    exact Finset.mem_union_right _ (Finset.mem_singleton_self _)
  -- pairwise-distinct piece columns
  have hpcnodup : (st.sol.map fun r =>
      pieceColFn (mkCtx pls ex).base (pls.getD r default).piece).Nodup := by
    rw [List.Nodup, List.pairwise_map]
    refine hval.2.1.imp_of_mem ?_
    intro a b ha hb hdisj heq
    have h1 := hpc_mem_row a ha
    have h2 := hpc_mem_row b hb
    rw [heq] at h1
    exact Finset.disjoint_left.mp hdisj h1 h2
  -- length
  have hlen8 : st.sol.length = 8 := by
    have h1 : (st.sol.map fun r =>
        pieceColFn (mkCtx pls ex).base (pls.getD r default).piece).toFinset.card = 8 := by
      rw [hsplit.2, pieceColsSet_card]
    rw [List.toFinset_card_of_nodup hpcnodup, List.length_map] at h1
    exact h1
  -- tags are pairwise distinct
  have htagnodup : (st.sol.map fun r => (pls.getD r default).piece).Nodup := by
    have hcomp : (st.sol.map fun r =>
        pieceColFn (mkCtx pls ex).base (pls.getD r default).piece) =
        (st.sol.map fun r => (pls.getD r default).piece).map
          (pieceColFn (mkCtx pls ex).base) := by
      rw [List.map_map]
      rfl
    rw [hcomp] at hpcnodup
    exact List.Nodup.of_map _ hpcnodup
  refine ⟨by rw [List.length_map]; exact hlen8, ?_, ?_, ?_⟩
  · -- each tag appears in exactly one chosen placement
    intro t ht
    have htPC : pieceColFn (mkCtx pls ex).base t ∈
        (st.sol.map fun r =>
          pieceColFn (mkCtx pls ex).base (pls.getD r default).piece).toFinset := by
      rw [hsplit.2]
      exact mem_pieceColsSet.mpr ⟨t, ht, rfl⟩
    rw [List.mem_toFinset, List.mem_map] at htPC
    rcases htPC with ⟨r, hr, hpcr⟩
    have htr : (pls.getD r default).piece = t :=
      pieceColFn_inj_on_tags (mkCtx pls ex).base _ (htag r hr) t ht hpcr
    have htmem : t ∈ st.sol.map fun r => (pls.getD r default).piece := by
      rw [List.mem_map]
      exact ⟨r, hr, htr⟩
    have hfl : ((st.sol.map fun r => pls.getD r default).filter
        fun pl => decide (pl.piece = t)).length =
        (st.sol.filter fun r => decide ((pls.getD r default).piece = t)).length := by
      rw [List.filter_map]
      exact List.length_map _ _
    have hfl2 : ((st.sol.map fun r => (pls.getD r default).piece).filter
        fun s => decide (s = t)).length =
        (st.sol.filter fun r => decide ((pls.getD r default).piece = t)).length := by
      rw [List.filter_map]
      exact List.length_map _ _
    have hlen1 := length_filter_eq_one_of_nodup htagnodup htmem
    rw [hfl2] at hlen1
    rw [hfl]
    exact hlen1
  · -- the squares cover exactly the non-excluded board columns
    have hfold : ((st.sol.map fun r => pls.getD r default).foldr
        (fun pl acc => pl.squares.toFinset ∪ acc) ∅) =
        st.sol.foldr (fun r acc => (pls.getD r default).squares.toFinset ∪ acc) ∅ := by
      rw [List.foldr_map]
    rw [hfold]
    exact hsplit.1
  · -- no two chosen placements overlap on board columns
    rw [List.pairwise_map]
    refine hval.2.1.imp_of_mem ?_
    intro a b ha hb hdisj
    exact Finset.disjoint_of_subset_left (hsq_sub_row a ha)
      (Finset.disjoint_of_subset_right (hsq_sub_row b hb) hdisj)

lemma mem_ascList {s : Finset Nat} {x : Nat} : x ∈ ascList s ↔ x ∈ s := by
  unfold ascList
  rw [List.mem_filter, List.mem_range, decide_eq_true_eq]
  constructor
  · exact fun h => h.2
  · intro h
    exact ⟨Nat.lt_succ_of_le (Finset.le_sup (f := id) h), h⟩

lemma length_filter_add_neg {α : Type} (p : α → Bool) (l : List α) :
    (l.filter p).length + (l.filter fun x => !(p x)).length = l.length := by
  induction l with
  | nil => rfl
  | cons x xs ih =>
    rw [List.filter_cons, List.filter_cons]
    cases hp : p x
    · rw [if_neg (by simp [hp]), if_pos (by simp [hp])]
      simp only [List.length_cons]
      omega
    · rw [if_pos (by simp [hp]), if_neg (by simp [hp])]
      simp only [List.length_cons]
      omega

/-! ## Concrete instances used by witnesses and counterexamples -/

/-- An excluded set of two distinct valid cells: the January month cell `(0, 0)`
and the day-1 cell `(2, 0)` (spec §8, concrete scenario 2). -/
def ex0 : Finset Cell := {month_cell 1, day_cell 1}

/-- Shorthand for building a `Placement` record by hand. -/
def mkPl (t : String) (sq : List Nat) : Placement := ⟨t, sq, (0, 0), 0, false⟩

/-- Eight placement rows that partition the 41 non-excluded board columns of `ex0`
(columns 0 and 12 are excluded), one row per piece tag.  The solver finds the
unique solution `[0, 1, ..., 7]` on this input. -/
def pls0 : List Placement :=
  [mkPl "A" [1, 2, 3, 4, 5], mkPl "B" [6, 7, 8, 9, 10], mkPl "C" [11, 13, 14, 15, 16],
   mkPl "D" [17, 18, 19, 20, 21], mkPl "E" [22, 23, 24, 25, 26, 27],
   mkPl "F" [28, 29, 30, 31, 32], mkPl "G" [33, 34, 35, 36, 37],
   mkPl "H" [38, 39, 40, 41, 42]]

def ctx0 : Ctx := mkCtx pls0 ex0

/-- The board columns of `ex0` other than 1, 2, 3 (used to pad `pls4`). -/
def fillerCols : List Nat :=
  (List.range 43).filter fun c => c ≠ 0 && c ≠ 12 && c ≠ 1 && c ≠ 2 && c ≠ 3

/-- A placement list on which the search reaches the state `used = {2, 43}` (after
choosing row 0, the only candidate of column 2) and then chooses column 1, whose
candidate rows are two piece-B rows; column 3's three candidate rows are all
piece-A rows, conflicting with the already-used piece column 43.  Each remaining
column gets three one-square filler rows with tags cycling over C–H so that no
column has fewer early candidates. -/
def pls4 : List Placement :=
  [mkPl "A" [2], mkPl "B" [1], mkPl "B" [1],
   mkPl "A" [3], mkPl "A" [3], mkPl "A" [3]] ++
  (fillerCols.enum.flatMap fun ic =>
    [mkPl (["C", "D", "E", "F", "G", "H"].getD (ic.1 % 6) "C") [ic.2],
     mkPl (["D", "E", "F", "G", "H", "C"].getD (ic.1 % 6) "D") [ic.2],
     mkPl (["E", "F", "G", "H", "C", "D"].getD (ic.1 % 6) "E") [ic.2]])

def ctx4 : Ctx := mkCtx pls4 ex0

/-- The `used` set reached by the search on `pls4` at its second column-selection
step. -/
def u4 : Finset Nat := {2, 43}

/-! ## Claim theorems -/

/-- **C9.** The cell-to-index and index-to-cell maps are mutually inverse
bijections: for every valid cell `(r, c)` the dict lookup succeeds with the index
whose `BOARD_CELLS` entry is `(r, c)` again; for every `i < 43` the lookup of the
`i`-th cell is `some i`; and `CELL_TO_COL` is defined exactly on the valid cells. -/
theorem claim9_cell_bijection :
    (∀ r c : Nat, r < ROW_WIDTHS.length → c < ROW_WIDTHS.getD r 0 →
      CELL_TO_COL (r, c) = some (cellCol (r, c)) ∧ cellCol (r, c) < 43 ∧
      BOARD_CELLS.getD (cellCol (r, c)) (7, 7) = (r, c)) ∧
    (∀ i : Nat, i < 43 → CELL_TO_COL (BOARD_CELLS.getD i (7, 7)) = some i) ∧
    (∀ rc : Cell, (CELL_TO_COL rc).isSome ↔
      (rc.1 < ROW_WIDTHS.length ∧ rc.2 < ROW_WIDTHS.getD rc.1 0)) := by
  refine ⟨?_, col_cellCol_roundtrip, ?_⟩
  · intro r c hr hc
    have h := cellCol_roundtrip' hr hc
    rcases Option.isSome_iff_exists.mp h.2.2 with ⟨x, hx⟩
    have hcc : cellCol (r, c) = x := by
      unfold cellCol
      rw [hx]
      rfl
    exact ⟨by rw [hx, hcc], h.1, h.2.1⟩
  · intro rc
    constructor
    · intro h
      by_contra hval
      have hnm : rc ∉ BOARD_CELLS := fun hm => hval ((mem_BOARD_CELLS_iff rc).mp hm)
      have hnone : CELL_TO_COL rc = none := by
        unfold CELL_TO_COL
        rw [List.findIdx?_eq_none_iff]
        intro x hx
        rw [decide_eq_false_iff_not]
        intro hxe
        exact hnm (hxe ▸ hx)
      rw [hnone] at h
      cases h
    · intro h
      exact (cellCol_roundtrip' h.1 h.2).2.2

/-- Witness for C9 at the concrete cell `(2, 5)` (index 17) and index 17. -/
theorem claim9_cell_bijection_witness :
    (CELL_TO_COL (2, 5) = some (cellCol (2, 5)) ∧ cellCol (2, 5) < 43 ∧
      BOARD_CELLS.getD (cellCol (2, 5)) (7, 7) = (2, 5)) ∧
    CELL_TO_COL (BOARD_CELLS.getD 17 (7, 7)) = some 17 ∧
    ((CELL_TO_COL ((6 : Nat), (5 : Nat))).isSome ↔
      ((6 : Nat) < ROW_WIDTHS.length ∧ (5 : Nat) < ROW_WIDTHS.getD 6 0)) :=
  ⟨claim9_cell_bijection.1 2 5 (by decide) (by decide),
   claim9_cell_bijection.2.1 17 (by decide),
   claim9_cell_bijection.2.2 (6, 5)⟩

/-- **C10.** For every in-range date (`1 ≤ m ≤ 12`, `1 ≤ d ≤ 31`), `month_cell`
and `day_cell` return valid board cells, the month cell lies in rows 0–1, the day
cell in rows 2–6, and the two cells are distinct — so the solver's excluded-set
precondition holds for every in-range date. -/
theorem claim10_date_cells (m d : Nat) (hm1 : 1 ≤ m) (hm2 : m ≤ 12)
    (hd1 : 1 ≤ d) (hd2 : d ≤ 31) :
    (month_cell m).1 < ROW_WIDTHS.length ∧
    (month_cell m).2 < ROW_WIDTHS.getD (month_cell m).1 0 ∧
    (day_cell d).1 < ROW_WIDTHS.length ∧
    (day_cell d).2 < ROW_WIDTHS.getD (day_cell d).1 0 ∧
    (month_cell m).1 < 2 ∧ 2 ≤ (day_cell d).1 ∧
    month_cell m ≠ day_cell d := by
  have H : ∀ m', m' < 13 → ∀ d', d' < 32 →
      ((month_cell m').1 < ROW_WIDTHS.length ∧
       (month_cell m').2 < ROW_WIDTHS.getD (month_cell m').1 0 ∧
       (day_cell d').1 < ROW_WIDTHS.length ∧
       (day_cell d').2 < ROW_WIDTHS.getD (day_cell d').1 0 ∧
       (month_cell m').1 < 2 ∧ 2 ≤ (day_cell d').1 ∧
       month_cell m' ≠ day_cell d') := by decide
  exact H m (by omega) d (by omega)

/-- Witness for C10 at July 6 (spec §8, concrete scenario 1: month cell `(1, 0)`,
day cell `(2, 5)`). -/
theorem claim10_date_cells_witness :
    (month_cell 7).1 < ROW_WIDTHS.length ∧
    (month_cell 7).2 < ROW_WIDTHS.getD (month_cell 7).1 0 ∧
    (day_cell 6).1 < ROW_WIDTHS.length ∧
    (day_cell 6).2 < ROW_WIDTHS.getD (day_cell 6).1 0 ∧
    (month_cell 7).1 < 2 ∧ 2 ≤ (day_cell 6).1 ∧
    month_cell 7 ≠ day_cell 6 :=
  claim10_date_cells 7 6 (by decide) (by decide) (by decide) (by decide)

/-- **C8.** For every excluded set of two distinct valid cells, the universe has
`43 - 2 + 8` elements: one column per non-excluded board cell (41 of them) plus the
8 synthetic piece columns, which are disjoint from all board-cell columns. -/
theorem claim8_universe_card (a b : Cell)
    (ha : a.1 < ROW_WIDTHS.length ∧ a.2 < ROW_WIDTHS.getD a.1 0)
    (hb : b.1 < ROW_WIDTHS.length ∧ b.2 < ROW_WIDTHS.getD b.1 0)
    (hab : a ≠ b) (pls : List Placement) :
    (mkCtx pls {a, b}).univ.card = 43 - 2 + 8 ∧
    (boardColsOf {a, b}).card = 43 - 2 ∧
    (mkCtx pls {a, b}).univ =
      boardColsOf {a, b} ∪ pieceColsSet (mkCtx pls {a, b}).base ∧
    (pieceColsSet (mkCtx pls {a, b}).base).card = 8 ∧
    Disjoint (boardColsOf {a, b}) (pieceColsSet (mkCtx pls {a, b}).base) := by
  have hBC : BOARD_CELLS.Nodup := by decide
  have hamem : a ∈ BOARD_CELLS := (mem_BOARD_CELLS_iff a).mpr ha
  have hbmem : b ∈ BOARD_CELLS := (mem_BOARD_CELLS_iff b).mpr hb
  have hfilnd : (BOARD_CELLS.filter fun xy =>
      decide (xy ∉ ({a, b} : Finset Cell))).Nodup := hBC.filter _
  have hmapnd : ((BOARD_CELLS.filter fun xy =>
      decide (xy ∉ ({a, b} : Finset Cell))).map cellCol).Nodup := by
    refine List.Nodup.map_on ?_ hfilnd
    intro x hx y hy hxy
    exact cellCol_inj_on_valid (List.mem_filter.mp hx).1 (List.mem_filter.mp hy).1 hxy
  have hcardb : (boardColsOf {a, b}).card =
      (BOARD_CELLS.filter fun xy => decide (xy ∉ ({a, b} : Finset Cell))).length := by
    unfold boardColsOf
    rw [List.toFinset_card_of_nodup hmapnd, List.length_map]
  have hcompl : (BOARD_CELLS.filter fun xy =>
      !(decide (xy ∉ ({a, b} : Finset Cell)))).length = 2 := by
    have hpred : (BOARD_CELLS.filter fun xy =>
        !(decide (xy ∉ ({a, b} : Finset Cell)))) =
        (BOARD_CELLS.filter fun xy => decide (xy ∈ ({a, b} : Finset Cell))) := by
      refine List.filter_congr ?_
      intro x _
      by_cases hx : x ∈ ({a, b} : Finset Cell) <;> simp [hx]
    rw [hpred]
    have hnd2 := hBC.filter (fun xy => decide (xy ∈ ({a, b} : Finset Cell)))
    have htf : (BOARD_CELLS.filter fun xy =>
        decide (xy ∈ ({a, b} : Finset Cell))).toFinset = ({a, b} : Finset Cell) := by
      ext x
      rw [List.mem_toFinset, List.mem_filter, decide_eq_true_eq]
      constructor
      · exact fun h => h.2
      · intro hx
        refine ⟨?_, hx⟩
        rcases Finset.mem_insert.mp hx with rfl | hx2
        · exact hamem
        · rw [Finset.mem_singleton.mp hx2]
          exact hbmem
    have hcard2 := List.toFinset_card_of_nodup hnd2
    rw [htf] at hcard2
    have hc : ({a, b} : Finset Cell).card = 2 := by
      rw [Finset.card_insert_of_not_mem (by simpa using hab), Finset.card_singleton]
    omega
  have hsum := length_filter_add_neg
    (fun xy => decide (xy ∉ ({a, b} : Finset Cell))) BOARD_CELLS
  rw [BOARD_CELLS_length] at hsum
  have hb41 : (boardColsOf {a, b}).card = 43 - 2 := by
    rw [hcardb]; omega
  have hdisj := disjoint_boardCols_pieceCols ({a, b} : Finset Cell)
  refine ⟨?_, hb41, mkCtx_univ pls {a, b}, pieceColsSet_card _, ?_⟩
  · rw [mkCtx_univ pls {a, b}, mkCtx_base pls {a, b},
      Finset.card_union_of_disjoint hdisj, hb41, pieceColsSet_card]
  · rw [mkCtx_base pls {a, b}]
    exact hdisj

/-- Witness for C8 at the concrete excluded set `ex0 = {(0,0), (2,0)}` and the
empty placement list. -/
theorem claim8_universe_card_witness :
    (mkCtx [] ex0).univ.card = 43 - 2 + 8 ∧
    (boardColsOf ex0).card = 43 - 2 ∧
    (mkCtx [] ex0).univ = boardColsOf ex0 ∪ pieceColsSet (mkCtx [] ex0).base ∧
    (pieceColsSet (mkCtx [] ex0).base).card = 8 ∧
    Disjoint (boardColsOf ex0) (pieceColsSet (mkCtx [] ex0).base) :=
  claim8_universe_card (0, 0) (2, 0) (by decide) (by decide) (by decide) []

/-- The spec-side enumeration of orientations: flip ∈ {false, true} outer,
rotation ∈ {0, 90, 180, 270} inner, each normalized.  Stated from the spec's words
for the refinement claim C6; compare `all_transforms`. -/
def specEnum (g : RawPiece) : List Transform :=
  [false, true].flatMap fun fl => [0, 90, 180, 270].map fun rot =>
    (normalize (iterRotate (rot / 90)
      (if fl then flip (grid_to_coords g) else grid_to_coords g)), rot, fl)

/-- The spec-side orientation sequence: first occurrence of each normalized
coordinate set, in enumeration order (spec §4.2). -/
def specFirstSeen (g : RawPiece) : List Transform :=
  (specEnum g).foldl
    (fun acc t => if acc.any fun s => s.1 = t.1 then acc else acc ++ [t]) []

/-- **C6.** For every piece shape, `all_transforms` returns between 1 and 8
orientations with pairwise-distinct normalized coordinate sets, ordered by first
occurrence under the spec's enumeration (flip outer, rotation inner), and running
it twice yields identical sequences (trivial in the pure embedding: the function
has no state). -/
theorem claim6_orientations :
    ∀ ng ∈ PIECES,
      1 ≤ (all_transforms ng.2).length ∧ (all_transforms ng.2).length ≤ 8 ∧
      ((all_transforms ng.2).map fun t => t.1).Nodup ∧
      all_transforms ng.2 = specFirstSeen ng.2 ∧
      all_transforms ng.2 = all_transforms ng.2 := by decide

/-- Witness for C6 at piece A. -/
theorem claim6_orientations_witness :
    1 ≤ (all_transforms [[1,0],[1,0],[1,0],[1,1]]).length ∧
    (all_transforms [[1,0],[1,0],[1,0],[1,1]]).length ≤ 8 ∧
    ((all_transforms [[1,0],[1,0],[1,0],[1,1]]).map fun t => t.1).Nodup ∧
    all_transforms [[1,0],[1,0],[1,0],[1,1]] = specFirstSeen [[1,0],[1,0],[1,0],[1,1]] ∧
    all_transforms [[1,0],[1,0],[1,0],[1,1]] = all_transforms [[1,0],[1,0],[1,0],[1,1]] :=
  claim6_orientations ("A", [[1,0],[1,0],[1,0],[1,1]]) (by decide)

/-- **C2 fails on the code** — counterexample.  The identity orientation of piece H
(coordinates `[(0,0),(1,0),(2,0),(2,1),(2,2)]`) at anchor `(1, 4)` has its bounding
box inside the 7 board rows and every translated cell valid and outside the
excluded set `ex0`, yet `generate_placements` emits no placement with piece H,
anchor `(1, 4)`, rotation 0, no flip: the code bounds the anchor column by the
*anchor row's* width (`ROW_WIDTHS[tr] - max_c`), skipping legal placements whose
widest cells lie in wider rows below the anchor row. -/
theorem claim2_counterexample :
    ("H", [[1,0,0],[1,0,0],[1,1,1]]) ∈ PIECES ∧
    ([(0,0),(1,0),(2,0),(2,1),(2,2)], 0, false) ∈
      all_transforms [[1,0,0],[1,0,0],[1,1,1]] ∧
    1 + listMax (([(0,0),(1,0),(2,0),(2,1),(2,2)] : List Cell).map Prod.fst) <
      ROW_WIDTHS.length ∧
    (placementCells [(0,0),(1,0),(2,0),(2,1),(2,2)] 1 4).all (cellOk ex0) = true ∧
    ∀ pl ∈ generate_placements ex0,
      ¬(pl.piece = "H" ∧ pl.top_left = (1, 4) ∧ pl.rotation = 0 ∧
        pl.flipped = false) := by
  refine ⟨by decide, by decide, by decide, by decide, ?_⟩
  have hA : ∀ pl ∈ piecePlacements ex0 ("A", [[1,0],[1,0],[1,0],[1,1]]),
      ¬(pl.piece = "H" ∧ pl.top_left = (1, 4) ∧ pl.rotation = 0 ∧
        pl.flipped = false) := by decide
  have hB : ∀ pl ∈ piecePlacements ex0 ("B", [[1,0],[1,0],[1,1],[1,0]]),
      ¬(pl.piece = "H" ∧ pl.top_left = (1, 4) ∧ pl.rotation = 0 ∧
        pl.flipped = false) := by decide
  have hC : ∀ pl ∈ piecePlacements ex0 ("C", [[1,0],[1,0],[1,1],[0,1]]),
      ¬(pl.piece = "H" ∧ pl.top_left = (1, 4) ∧ pl.rotation = 0 ∧
        pl.flipped = false) := by decide
  have hD : ∀ pl ∈ piecePlacements ex0 ("D", [[1,1],[1,0],[1,1]]),
      ¬(pl.piece = "H" ∧ pl.top_left = (1, 4) ∧ pl.rotation = 0 ∧
        pl.flipped = false) := by decide
  have hE : ∀ pl ∈ piecePlacements ex0 ("E", [[1,1],[1,1],[1,1]]),
      ¬(pl.piece = "H" ∧ pl.top_left = (1, 4) ∧ pl.rotation = 0 ∧
        pl.flipped = false) := by decide
  have hF : ∀ pl ∈ piecePlacements ex0 ("F", [[1,0],[1,1],[1,1]]),
      ¬(pl.piece = "H" ∧ pl.top_left = (1, 4) ∧ pl.rotation = 0 ∧
        pl.flipped = false) := by decide
  have hG : ∀ pl ∈ piecePlacements ex0 ("G", [[1,1,0],[0,1,0],[0,1,1]]),
      ¬(pl.piece = "H" ∧ pl.top_left = (1, 4) ∧ pl.rotation = 0 ∧
        pl.flipped = false) := by decide
  have hH : ∀ pl ∈ piecePlacements ex0 ("H", [[1,0,0],[1,0,0],[1,1,1]]),
      ¬(pl.piece = "H" ∧ pl.top_left = (1, 4) ∧ pl.rotation = 0 ∧
        pl.flipped = false) := by decide
  intro pl hpl
  rcases List.mem_flatMap.mp hpl with ⟨ng, hng, hplng⟩
  have hcases : ng = ("A", [[1,0],[1,0],[1,0],[1,1]]) ∨
      ng = ("B", [[1,0],[1,0],[1,1],[1,0]]) ∨ ng = ("C", [[1,0],[1,0],[1,1],[0,1]]) ∨
      ng = ("D", [[1,1],[1,0],[1,1]]) ∨ ng = ("E", [[1,1],[1,1],[1,1]]) ∨
      ng = ("F", [[1,0],[1,1],[1,1]]) ∨ ng = ("G", [[1,1,0],[0,1,0],[0,1,1]]) ∨
      ng = ("H", [[1,0,0],[1,0,0],[1,1,1]]) := by
    simpa [PIECES] using hng
  rcases hcases with rfl | rfl | rfl | rfl | rfl | rfl | rfl | rfl
  · exact hA pl hplng
  · exact hB pl hplng
  · exact hC pl hplng
  · exact hD pl hplng
  · exact hE pl hplng
  · exact hF pl hplng
  · exact hG pl hplng
  · exact hH pl hplng

/-- **C2 amended.**  `generate_placements` is complete over the anchor range the
code actually enumerates: for every piece, orientation, and anchor `(tr, tc)` with
`tr + max_r < 7` *and additionally `tc + max_c < ROW_WIDTHS[tr]`* (the anchor
row's width — the restriction the counterexample exhibits), if every translated
cell is valid and non-excluded, the corresponding placement is in the output. -/
theorem claim2_amended_completeness (ex : Finset Cell) (name : String)
    (grid : RawPiece) (t : Transform) (tr tc : Nat)
    (hng : (name, grid) ∈ PIECES) (ht : t ∈ all_transforms grid)
    (htr : tr < ROW_WIDTHS.length - listMax (t.1.map Prod.fst))
    (htc : tc < ROW_WIDTHS.getD tr 0 - listMax (t.1.map Prod.snd))
    (hcells : (placementCells t.1 tr tc).all (cellOk ex) = true) :
    (⟨name, List.insertionSort (· ≤ ·) ((placementCells t.1 tr tc).map cellCol),
      (tr, tc), t.2.1, t.2.2⟩ : Placement) ∈ generate_placements ex :=
  mem_generate_placements.mpr ⟨(name, grid), hng, t, ht, tr, tc, htr, htc, hcells, rfl⟩

/-- Witness for the amended C2: piece H at the in-range anchor `(1, 3)`. -/
theorem claim2_amended_completeness_witness :
    (⟨"H", List.insertionSort (· ≤ ·)
        ((placementCells [(0,0),(1,0),(2,0),(2,1),(2,2)] 1 3).map cellCol),
      (1, 3), 0, false⟩ : Placement) ∈ generate_placements ex0 :=
  claim2_amended_completeness ex0 "H" [[1,0,0],[1,0,0],[1,1,1]]
    ([(0,0),(1,0),(2,0),(2,1),(2,2)], 0, false) 1 3
    (by decide) (by decide) (by decide) (by decide) (by decide)

/-- **C5.** Every placement emitted by `generate_placements` occupies only valid,
non-excluded board cells; its column indices are pairwise distinct and number
exactly the piece's cell count (6 for piece E, 5 for every other piece). -/
theorem claim5_placement_legality (ex : Finset Cell) (pl : Placement)
    (hpl : pl ∈ generate_placements ex) :
    (∀ s ∈ pl.squares, s < 43 ∧
      (BOARD_CELLS.getD s (7, 7)).2 < ROW_WIDTHS.getD (BOARD_CELLS.getD s (7, 7)).1 0 ∧
      BOARD_CELLS.getD s (7, 7) ∉ ex) ∧
    pl.squares.Nodup ∧
    pl.squares.length = (if pl.piece = "E" then 6 else 5) := by
  have h := generate_placements_legal hpl
  exact ⟨h.2.2.2.1, h.2.1, h.2.2.1⟩

/-- Witness for C5 at the first placement the generator emits for `ex0`. -/
theorem claim5_placement_legality_witness :
    (∀ s ∈ [1, 7, 13, 20, 21], s < 43 ∧
      (BOARD_CELLS.getD s (7, 7)).2 < ROW_WIDTHS.getD (BOARD_CELLS.getD s (7, 7)).1 0 ∧
      BOARD_CELLS.getD s (7, 7) ∉ ex0) ∧
    ([1, 7, 13, 20, 21] : List Nat).Nodup ∧
    ([1, 7, 13, 20, 21] : List Nat).length = (if "A" = "E" then 6 else 5) :=
  claim5_placement_legality ex0 ⟨"A", [1, 7, 13, 20, 21], (0, 1), 0, false⟩ (by decide)

/-- Case analysis of the result of `solve_exact_cover`: a returned solution comes
from a successful search state. -/
lemma solve_some_cases {pls : List Placement} {ex : Finset Cell}
    {sol : List Placement} (h : (solve_exact_cover pls ex).1 = some sol) :
    ∃ st, searchF (mkCtx pls ex) 8 initState = some (true, st) ∧
      sol = st.sol.map fun r => pls.getD r default := by
  have h' : (match searchF (mkCtx pls ex) 8 initState with
      | some (true, st) => (some (st.sol.map fun r => pls.getD r default), st.tries)
      | some (false, st) => ((none : Option (List Placement)), st.tries)
      | none => ((none : Option (List Placement)), 0)).1 = some sol := h
  cases hres : searchF (mkCtx pls ex) 8 initState with
  | none =>
    rw [hres] at h'
    exact Option.noConfusion h'
  | some p =>
    rcases p with ⟨b, st⟩
    cases b
    · rw [hres] at h'
      exact Option.noConfusion h'
    · rw [hres] at h'
      exact ⟨st, rfl, (Option.some.inj h').symm⟩

/-- **C1.** If the solver returns a solution (for a placement list produced by
`generate_placements`, or more generally any list of well-tagged board-legal rows),
it consists of exactly 8 placements, each of the 8 piece tags appearing exactly
once, whose board columns partition exactly the set of non-excluded board cells:
zero overlap, full coverage. -/
theorem claim1_solution_valid (ex : Finset Cell) (pls : List Placement)
    (hpls : pls = generate_placements ex ∨ PlacementsOk pls ex)
    (sol : List Placement)
    (hsol : (solve_exact_cover pls ex).1 = some sol) :
    sol.length = 8 ∧
    (∀ t ∈ pieceTags, (sol.filter fun pl => decide (pl.piece = t)).length = 1) ∧
    (sol.foldr (fun pl acc => pl.squares.toFinset ∪ acc) ∅) = boardColsOf ex ∧
    sol.Pairwise (fun a b => Disjoint a.squares.toFinset b.squares.toFinset) := by
  have hok : PlacementsOk pls ex := by
    rcases hpls with rfl | h
    · exact generate_placements_ok ex
    · exact h
  have hval0 : Valid (mkCtx pls ex) initState :=
    ⟨rfl, List.Pairwise.nil, fun r hr => absurd hr (List.not_mem_nil r)⟩
  have hspec := searchF_spec (mkCtx pls ex) (mkCtx_rows_lt pls ex) 8 initState hval0
  rcases solve_some_cases hsol with ⟨st, hres, rfl⟩
  rw [hres] at hspec
  exact solution_props hok hspec.1 hspec.2

/-- Witness for C1: on the crafted legal partition `pls0`, the solver returns the
8 rows in order, and their properties hold. -/
theorem claim1_solution_valid_witness :
    pls0.length = 8 ∧
    (∀ t ∈ pieceTags, (pls0.filter fun pl => decide (pl.piece = t)).length = 1) ∧
    (pls0.foldr (fun pl acc => pl.squares.toFinset ∪ acc) ∅) = boardColsOf ex0 ∧
    pls0.Pairwise (fun a b => Disjoint a.squares.toFinset b.squares.toFinset) :=
  claim1_solution_valid ex0 pls0 (Or.inr (by unfold PlacementsOk; decide)) pls0
    (by decide)

/-- **C3 fails on the code** — counterexample.  On `pls0` the search succeeds, and
the early success return propagates *without* undoing: the final `sol` is the full
solution stack `[0..7]`, not the pre-branch (initial, empty) `sol`.  The undo is
executed only on the failure paths; the spec's "undo on every exit path,
success-short-circuit included" contradicts the code, whose returned solution is
precisely the un-popped stack. -/
theorem claim3_counterexample :
    ((searchF ctx0 8 initState).map fun p => (p.1, p.2.sol)) =
      some (true, [0, 1, 2, 3, 4, 5, 6, 7]) ∧
    ([0, 1, 2, 3, 4, 5, 6, 7] : List Nat) ≠ initState.sol :=
  ⟨by decide, by decide⟩

/-- **C3 amended.**  Every mutation of `used`/`sol` made on entering a branch is
undone on every *failure* exit path: whenever the search returns `false` from a
valid state, `sol` and `used` are restored to their exact pre-call values (only
`tries` and the instrumentation trace advance).  On the success path the pushed
rows are deliberately retained — they are the returned solution. -/
theorem claim3_amended_restore_on_failure (pls : List Placement) (ex : Finset Cell)
    (fuel : Nat) (st st' : SearchState) (hval : Valid (mkCtx pls ex) st)
    (hfail : searchF (mkCtx pls ex) fuel st = some (false, st')) :
    st'.sol = st.sol ∧ st'.used = st.used := by
  have hspec := searchF_spec (mkCtx pls ex) (mkCtx_rows_lt pls ex) fuel st hval
  rw [hfail] at hspec
  exact hspec

/-- Witness for the amended C3: on the empty placement list the search fails
immediately and `sol`/`used` come back unchanged. -/
theorem claim3_amended_restore_witness :
    SearchState.sol ⟨[], ∅, 0, [(∅ : Finset Nat)]⟩ = initState.sol ∧
    SearchState.used ⟨[], ∅, 0, [(∅ : Finset Nat)]⟩ = initState.used :=
  claim3_amended_restore_on_failure [] ex0 8 initState ⟨[], ∅, 0, [∅]⟩
    ⟨rfl, List.Pairwise.nil, fun r hr => absurd hr (List.not_mem_nil r)⟩
    (by decide)

/-- **C4 fails on the code** — counterexample.  On `pls4` the search reaches the
state `used = {2, 43}` (trace entry 1) and `choose` picks column 1; but the claim's
filter — rows none of whose columns, piece column included, are used — gives
column 1 two candidates while column 3 has zero (all its rows' piece column 43 is
used), so the chosen column is not minimal under the claim's filter.  The code's
`choose` consults only `placements[r].squares`, never the piece column. -/
theorem claim4_counterexample :
    ((searchF ctx4 8 initState).map fun p => p.2.trace.getD 1 ∅) = some u4 ∧
    ctx4.choose u4 = 1 ∧ (3 : Nat) ∈ ctx4.univ \ u4 ∧
    ctx4.claimLen u4 3 < ctx4.claimLen u4 (ctx4.choose u4) :=
  ⟨by decide, by decide, by decide, by decide⟩

/-- **C4 amended.**  The chosen column is an unused column of the universe whose
candidate-row list, filtered by *board-square* overlap with `usedColumns` only
(the piece column is not consulted), has minimal length among all unused columns. -/
theorem claim4_amended_choose_minimal (ctx : Ctx) (used : Finset Nat)
    (hne : (ctx.univ \ used).Nonempty) :
    ctx.choose used ∈ ctx.univ \ used ∧
    ∀ c ∈ ctx.univ \ used, ctx.keyLen used (ctx.choose used) ≤ ctx.keyLen used c := by
  have hl : ascList (ctx.univ \ used) ≠ [] := by
    rcases hne with ⟨x, hx⟩
    exact List.ne_nil_of_mem (mem_ascList.mpr hx)
  rcases pyMin_spec (ctx.keyLen used) (ascList (ctx.univ \ used)) hl with ⟨hmem, hmin⟩
  exact ⟨mem_ascList.mp hmem, fun c hc => hmin c (mem_ascList.mpr hc)⟩

/-- Witness for the amended C4 at `ctx0` with nothing used yet. -/
theorem claim4_amended_choose_witness :
    ctx0.choose ∅ ∈ ctx0.univ \ ∅ ∧
    ∀ c ∈ ctx0.univ \ ∅, ctx0.keyLen ∅ (ctx0.choose ∅) ≤ ctx0.keyLen ∅ c :=
  claim4_amended_choose_minimal ctx0 ∅ (by decide)

/-- **C7.** For every placement list (with known piece tags — Python raises a
`KeyError` otherwise) and any excluded set, the search terminates with recursion
depth at most 8: fuel 8 already yields a result (each recursive step consumes one
of the 8 piece columns), and every larger fuel returns the same result, so the
fuel is no external bound and `solve_exact_cover` (defined with fuel 8) computes
the value of the unbounded Python recursion. -/
theorem claim7_termination_depth8 (pls : List Placement) (ex : Finset Cell)
    (htags : ∀ pl ∈ pls, pl.piece ∈ pieceTags) :
    (searchF (mkCtx pls ex) 8 initState).isSome ∧
    ∀ f, 8 ≤ f →
      searchF (mkCtx pls ex) f initState = searchF (mkCtx pls ex) 8 initState := by
  have hval0 : Valid (mkCtx pls ex) initState :=
    ⟨rfl, List.Pairwise.nil, fun r hr => absurd hr (List.not_mem_nil r)⟩
  have hcard : (pieceColsSet (mkCtx pls ex).base \ initState.used).card ≤ 8 := by
    have h0 : initState.used = (∅ : Finset Nat) := rfl
    rw [h0, Finset.sdiff_empty, pieceColsSet_card]
  have hsome := searchF_isSome (mkCtx pls ex) (mkCtx_rows_lt pls ex)
    (mkCtx_pcs pls ex htags) 8 initState hval0 hcard
  refine ⟨hsome, ?_⟩
  intro f hf
  rcases Option.isSome_iff_exists.mp hsome with ⟨x, hx⟩
  rw [hx]
  exact searchF_mono _ hf _ _ hx

/-- Witness for C7 at the empty placement list and `ex0`. -/
theorem claim7_termination_witness :
    (searchF (mkCtx [] ex0) 8 initState).isSome ∧
    ∀ f, 8 ≤ f →
      searchF (mkCtx [] ex0) f initState = searchF (mkCtx [] ex0) 8 initState :=
  claim7_termination_depth8 [] ex0 (fun pl h => absurd h (List.not_mem_nil pl))

end APuzzle
